import Mathlib

/-!
Verification of the Filter & Metrics Pipeline of the misinformation
dashboard (`src/app.py`).

The file shallowly embeds the data model and the pipeline operations:
the posts/edges tables, the pandas boolean-mask filter (line 103), the
networkx graph construction and degree centrality (lines 205-208), the
minimum-connection subgraph restriction (lines 224-227), the content
search (lines 341-346), the super-spreader table (lines 321-326), the
aggregators (value counts, timeline, histogram, nlargest) and the
cached CSV load (lines 69-79).  Definitions follow the source; the few
definitions that instead follow the specification's words (for
refinement comparisons) say so in their doc comments.
-/

/-- One row of the posts table (`data/sample_posts.csv`), after
`pd.to_datetime` on the timestamp column.  The timestamp is modelled as
seconds since the epoch (an integer); `misinfo_score`, `shares`,
`likes` and `comments` are integers, `archived` a boolean,
`archive_url` optional. -/
structure Post where
  post_id : String
  platform : String
  category : String
  content : String
  username : String
  user_id : String
  timestamp : Int
  misinfo_score : Int
  shares : Int
  likes : Int
  comments : Int
  status : String
  archived : Bool
  archive_url : Option String
deriving DecidableEq, Repr

/-- One row of the edges table (`data/network_edges.csv`):
source user id, target user id, weight. -/
abbrev EdgeRow := String × String × Int

/-- The filter of `src/app.py` lines 103-107:
`posts_df[(posts_df.platform.isin(selected_platform)) &
(posts_df.category.isin(selected_category)) &
(posts_df.misinfo_score >= min_score)]`.
A pandas boolean mask keeps rows in their original order; `isin` is
membership in the selected list. -/
def filterPosts (posts : List Post) (plats cats : List String) (ms : Int) : List Post :=
  posts.filter (fun p =>
    decide (p.platform ∈ plats) && decide (p.category ∈ cats) &&
      decide (ms ≤ p.misinfo_score))

/-- Whether edge `e` joins the unordered pair `{s, t}` (networkx
`Graph` edges are undirected). -/
def pairMatch (e : EdgeRow) (s t : String) : Bool :=
  decide ((e.1 = s ∧ e.2.1 = t) ∨ (e.1 = t ∧ e.2.1 = s))

/-- An undirected weighted graph as built by networkx: nodes in
insertion order (Python dicts preserve insertion order) and one stored
edge per unordered pair of endpoints, keeping the orientation and
position of first insertion. -/
structure Graph where
  nodes : List String
  edges : List EdgeRow
deriving DecidableEq, Repr

/-- `networkx.Graph.add_node`: appends the node unless present. -/
def addNode (g : Graph) (n : String) : Graph :=
  if n ∈ g.nodes then g else ⟨g.nodes ++ [n], g.edges⟩

/-- Whether some stored edge joins `{s, t}`. -/
def hasEdge (es : List EdgeRow) (s t : String) : Bool :=
  es.any (fun e => pairMatch e s t)

/-- Overwrite the weight attribute of the edge joining `{s, t}`,
keeping its stored orientation and position (networkx `add_edge` on an
existing edge updates the attribute dict in place). -/
def setWeight (es : List EdgeRow) (s t : String) (w : Int) : List EdgeRow :=
  es.map (fun e => if pairMatch e s t then (e.1, e.2.1, w) else e)

/-- `networkx.Graph.add_edge u v weight=w`: adds both endpoints as
nodes, then either overwrites the existing edge's weight or appends a
new edge. -/
def addEdge (g : Graph) (s t : String) (w : Int) : Graph :=
  { nodes := (addNode (addNode g s) t).nodes
    edges :=
      if hasEdge g.edges s t then setWeight g.edges s t w
      else g.edges ++ [(s, t, w)] }

/-- `nx.from_pandas_edgelist(edges_df, 'source', 'target',
edge_attr='weight')` (`src/app.py` line 205): add every row of the
edge table in order to an initially empty undirected graph. -/
def fromPandasEdgelist (rows : List EdgeRow) : Graph :=
  rows.foldl (fun g r => addEdge g r.1 r.2.1 r.2.2) ⟨[], []⟩

/-- `G.degree(n)` in networkx: each incident edge counts once, except
that a self-loop counts twice. -/
def degree (g : Graph) (n : String) : Nat :=
  (g.edges.map (fun e =>
    if e.1 = n ∧ e.2.1 = n then 2
    else if e.1 = n ∨ e.2.1 = n then 1
    else 0)).sum

/-- Number of nodes of the graph (`len(G)`). -/
def numNodes (g : Graph) : Nat := g.nodes.length

/-- `nx.degree_centrality` (`src/app.py` line 208): when the graph has
at most one node networkx returns the constant mapping `{n: 1}`
(empty for the empty graph); otherwise each node gets
`degree / (len(G) - 1)`. -/
def degreeCentrality (g : Graph) (n : String) : ℚ :=
  if numNodes g ≤ 1 then 1
  else (degree g n : ℚ) / ((numNodes g : ℚ) - 1)

/-- The other endpoints of the edges incident to `n`, one entry per
stored edge (used to bound the degree of loop-free graphs). -/
def nbrs (g : Graph) (n : String) : List String :=
  g.edges.filterMap (fun e =>
    if e.1 = n then some e.2.1
    else if e.2.1 = n then some e.1
    else none)

/-- Two edge rows describe the same unordered endpoint pair. -/
def sameUPair (e f : EdgeRow) : Prop :=
  (e.1 = f.1 ∧ e.2.1 = f.2.1) ∨ (e.1 = f.2.1 ∧ e.2.1 = f.1)

/-- Structural invariants of graphs produced by `fromPandasEdgelist`:
nodes are distinct, edge endpoints are nodes, and distinct stored
edges join distinct unordered pairs. -/
def GraphWF (g : Graph) : Prop :=
  g.nodes.Nodup ∧
  (∀ e ∈ g.edges, e.1 ∈ g.nodes ∧ e.2.1 ∈ g.nodes) ∧
  g.edges.Pairwise (fun e f => ¬ sameUPair e f)

/-- The weight attribute stored for the edge joining `{s, t}`, if any
(`G[s][t]['weight']`). -/
def edgeWeight (g : Graph) (s t : String) : Option Int :=
  (g.edges.find? (fun e => pairMatch e s t)).map (fun e => e.2.2)

/-- The weight of the last row of the edge table joining `{s, t}`,
if any. -/
def lastMatchWeight (rows : List EdgeRow) (s t : String) : Option Int :=
  rows.foldl (fun acc r => if pairMatch r s t then some r.2.2 else acc) none

/-- The graph analyzed by the Network tab (`src/app.py` line 205).
The filter criteria are in scope at that line (the working set is
`filtered_posts`) but the graph is built from the full `edges_df`
alone; the unused parameters record that dependence is possible but
absent. -/
def networkGraph (posts : List Post) (rows : List EdgeRow)
    (plats cats : List String) (ms : Int) : Graph :=
  fromPandasEdgelist rows

/-- Modelled from the spec: `analyze(Edges, allowedUsers)` restricted
to edges with at least one endpoint in `allowedUsers` (the user ids of
the working set); edges with neither endpoint allowed are dropped.
Used only to compare the spec's description against the code. -/
def specAnalyze (rows : List EdgeRow) (allowed : List String) : Graph :=
  fromPandasEdgelist
    (rows.filter (fun r => decide (r.1 ∈ allowed) || decide (r.2.1 ∈ allowed)))

/-- `filtered_nodes = [n for n in G.nodes() if G.degree(n) >= min_connections]`
(`src/app.py` line 225). -/
def minConnFilter (g : Graph) (k : Nat) : List String :=
  g.nodes.filter (fun n => decide (k ≤ degree g n))

/-- `G.subgraph(keep)` (`src/app.py` line 226): the induced subgraph on
the retained nodes — only edges with both endpoints retained. -/
def subgraph (g : Graph) (keep : List String) : Graph :=
  { nodes := g.nodes.filter (fun n => decide (n ∈ keep))
    edges := g.edges.filter (fun e => decide (e.1 ∈ keep) && decide (e.2.1 ∈ keep)) }

/-- The per-node metrics shown in the node hover text (`src/app.py`
lines 269-271): the connection count is `G_filtered.degree(node)`
(recomputed on the restricted subgraph) while the centrality is
`degree_centrality[node]` (computed on the full graph at line 208). -/
def nodeReport (g : Graph) (k : Nat) (n : String) : Nat × ℚ :=
  (degree (subgraph g (minConnFilter g k)) n, degreeCentrality g n)

/-- Degree of `n` measured only over the edges of `g` whose endpoints
both lie in `keep` (independent description of the induced-subgraph
degree). -/
def restrictedDegree (g : Graph) (keep : List String) (n : String) : Nat :=
  (g.edges.map (fun e =>
    if e.1 ∈ keep ∧ e.2.1 ∈ keep then
      (if e.1 = n ∧ e.2.1 = n then 2
       else if e.1 = n ∨ e.2.1 = n then 1
       else 0)
    else 0)).sum

/-- Insert into an ascending-sorted list, before the first element with
a key at least as large (stable). -/
def insAsc (key : α → Int) (x : α) : List α → List α
  | [] => [x]
  | y :: ys => if key x ≤ key y then x :: y :: ys else y :: insAsc key x ys

/-- Stable ascending sort by an integer key. -/
def sortAsc (key : α → Int) (l : List α) : List α :=
  l.foldr (insAsc key) []

/-- `DataFrame.sort_values(col, ascending=False)`: pandas `nargsort`
argsorts ascending and then reverses the whole index
(`indexer = indexer[::-1]`), so descending ties come out in reversed
original order.  numpy's introsort is an insertion sort — and hence
stable — at the array sizes exercised here. -/
def pandasSortDesc (key : α → Int) (l : List α) : List α :=
  (sortAsc key l).reverse

/-- Insert into a descending-sorted list, before the first element
with a key at most as large (stable). -/
def insDesc (key : α → Int) (x : α) : List α → List α
  | [] => [x]
  | y :: ys => if key y ≤ key x then x :: y :: ys else y :: insDesc key x ys

/-- `DataFrame.nlargest(n, col)`: the `n` rows with the largest key,
ties keeping the earlier row first (`keep='first'`). -/
def nlargestBy (key : α → Int) (n : Nat) (l : List α) : List α :=
  (l.foldr (insDesc key) []).take n

/-- The risk label of `src/app.py` line 325 (emoji prefixes dropped):
`'High' if G.degree(n) > 3 else 'Medium' if G.degree(n) > 1 else 'Low'`. -/
def riskLabel (d : Nat) : String :=
  if 3 < d then "High" else if 1 < d then "Medium" else "Low"

/-- One row of the super-spreaders table (`src/app.py` lines 321-325):
user id, connection count, degree centrality (displayed as a formatted
string; the underlying rational is kept here) and risk label. -/
structure SpreaderRow where
  userId : String
  connections : Nat
  centrality : ℚ
  risk : String
deriving DecidableEq, Repr

/-- The super-spreaders table (`src/app.py` lines 321-326): one row per
node of the full graph in node order, sorted by connections descending
(pandas `sort_values(ascending=False)`), first 10 rows kept. -/
def spreaderData (g : Graph) : List SpreaderRow :=
  (pandasSortDesc (fun r => (r.connections : Int))
    (g.nodes.map (fun n =>
      ⟨n, degree g n, degreeCentrality g n, riskLabel (degree g n)⟩))).take 10

/-- Lexicographic comparison of character lists by code point. -/
def strLex : List Char → List Char → Bool
  | [], [] => false
  | [], _ :: _ => true
  | _ :: _, [] => false
  | a :: as, b :: bs =>
    if a.toNat < b.toNat then true
    else if b.toNat < a.toNat then false
    else strLex as bs

/-- Modelled from the spec: the ascending order on node ids used by the
spec's tie-breaking rule (`ties broken by ascending node id`). -/
def idLt (a b : String) : Bool := strLex a.data b.data

/-- The characters Python's `re` module treats specially inside a
pattern: `. ^ $ * + ? { } [ ] \ | ( )` (the two braces are written by
code point). -/
def metaChars : List Char :=
  ['.', '^', '$', '*', '+', '?', Char.ofNat 123, Char.ofNat 125,
   '[', ']', '\\', '|', '(', ')']

/-- An ASCII character with no special regex meaning: `re.search`
matches it literally (case-insensitively under `re.IGNORECASE`, which
on ASCII is plain lower-case comparison). -/
def asciiPlain (c : Char) : Bool :=
  decide (c.toNat < 128) && decide (c ∉ metaChars)

/-- The fragment of search terms on which this file's model of
`Series.str.contains` agrees with Python: every character is either an
ASCII non-metacharacter (matched literally) or the `.` metacharacter
(matched against any character but a newline).  Terms with other
metacharacters (`*`, `+`, `[`, ... ) are outside the model, and the
theorems below assert nothing about them. -/
def modeledTerm (term : String) : Bool :=
  term.data.all (fun c => asciiPlain c || decide (c = '.'))

/-- An all-ASCII subject string: on such contents `re.IGNORECASE`
case-folding coincides with the ASCII `Char.toLower` used by the
model (Unicode case variants such as the Kelvin sign are excluded). -/
def asciiString (s : String) : Bool :=
  s.data.all (fun c => decide (c.toNat < 128))

/-- Match of one pattern character under `re.IGNORECASE`: the `.`
metacharacter matches any character except a newline; any other
character matches case-insensitively (faithful to Python for the
`modeledTerm` fragment over `asciiString` subjects). -/
def charMatch (p c : Char) : Bool :=
  if p = '.' then decide (c ≠ '\n') else decide (p.toLower = c.toLower)

/-- Whether the pattern matches a prefix of the character list. -/
def matchHere : List Char → List Char → Bool
  | [], _ => true
  | _ :: _, [] => false
  | p :: ps, c :: cs => charMatch p c && matchHere ps cs

/-- `re.search`: try the pattern at every position of the subject. -/
def searchFrom (pat : List Char) : List Char → Bool
  | [] => matchHere pat []
  | c :: cs => matchHere pat (c :: cs) || searchFrom pat cs

/-- `Series.str.contains(term, case=False, na=False)` (`src/app.py`
line 343).  pandas defaults to `regex=True`, so the term is compiled
as a regular expression and matched with `re.search` under
`re.IGNORECASE`.  The model is faithful exactly for terms satisfying
`modeledTerm` on contents satisfying `asciiString`; the theorems about
it carry those hypotheses and are silent outside that fragment. -/
def strContainsCI (content term : String) : Bool :=
  searchFrom term.data content.data

/-- The search of `src/app.py` lines 341-346: an empty term (falsy in
Python) leaves the working set unchanged — the match is never invoked —
otherwise rows whose content matches the term (`strContainsCI`,
faithful on the `modeledTerm` fragment) are kept. -/
def displayPosts (ws : List Post) (term : String) : List Post :=
  if term = "" then ws
  else ws.filter (fun p => strContainsCI p.content term)

/-- Case-insensitive literal comparison of one character. -/
def litCharMatch (p c : Char) : Bool := decide (p.toLower = c.toLower)

/-- Whether the term is literally a prefix of the character list,
case-insensitively. -/
def litHere : List Char → List Char → Bool
  | [], _ => true
  | _ :: _, [] => false
  | p :: ps, c :: cs => litCharMatch p c && litHere ps cs

/-- Literal case-insensitive substring search. -/
def litSearchFrom (pat : List Char) : List Char → Bool
  | [] => litHere pat []
  | c :: cs => litHere pat (c :: cs) || litSearchFrom pat cs

/-- Modelled from the spec: `case-insensitive substring match over the
content field` — the term taken as a literal string, not a regular
expression.  Used only to compare the spec's description against the
code. -/
def litSubstr (term content : String) : Bool :=
  litSearchFrom term.data content.data

/-- The distinct values of a list in order of first appearance. -/
def firstAppearance [DecidableEq α] (l : List α) : List α :=
  l.foldl (fun acc x => if x ∈ acc then acc else acc ++ [x]) []

/-- `Series.value_counts()` over a field of the working set
(`src/app.py` lines 146, 158, 507-513, 581): a mapping from each
distinct value to its count, ordered by count descending (pandas sorts
the counts with `ascending=False`; the order among equal counts is an
implementation detail, taken here as the pandas reversal of a stable
ascending pass over first-appearance order). -/
def countsByKey (ws : List Post) (f : Post → String) : List (String × Nat) :=
  pandasSortDesc (fun kv => (kv.2 : Int))
    ((firstAppearance (ws.map f)).map (fun k => (k, (ws.map f).count k)))

/-- `timestamp.dt.date`: truncation of the timestamp to its calendar
day, modelled as integer division of epoch seconds by 86400. -/
def postDate (p : Post) : Int := p.timestamp / 86400

/-- The timeline aggregate (`src/app.py` line 171):
`groupby(timestamp.dt.date).size()` — post count per calendar day,
days in ascending order (pandas groupby sorts its keys). -/
def timeline (ws : List Post) : List (Int × Nat) :=
  (sortAsc (fun d => d) (firstAppearance (ws.map postDate))).map
    (fun d => (d, (ws.map postDate).count d))

/-- Modelled from the spec: `scoreHistogram(WorkingSet, bins)` —
`px.histogram(filtered_posts, x='misinfo_score', nbins=15)`
(`src/app.py` lines 187-191) bins inside the plotting library, which
is not part of `src/`; the spec describes equal-width bins spanning
the observed minimum and maximum score, counted per bin, and an empty
working set yields an empty histogram. -/
def scoreHistogram (ws : List Post) (bins : Nat) : List Nat :=
  match ws.map (fun p => p.misinfo_score) with
  | [] => []
  | s :: ss =>
    let lo := ss.foldl min s
    let hi := ss.foldl max s
    let w : ℚ := ((hi : ℚ) - (lo : ℚ)) / (bins : ℚ)
    (List.range bins).map (fun i =>
      (s :: ss).countP (fun x =>
        decide ((lo : ℚ) + (i : ℚ) * w ≤ (x : ℚ)) &&
          (decide ((x : ℚ) < (lo : ℚ) + ((i : ℚ) + 1) * w) ||
            decide (i + 1 = bins) && decide ((x : ℚ) ≤ (lo : ℚ) + ((i : ℚ) + 1) * w))))

/-- `filtered_posts.nlargest(10, 'shares')` (`src/app.py` line 551)
generalized over the ranked field, as the spec's
`topByField(WorkingSet, field, n)`. -/
def topByField (ws : List Post) (key : Post → Int) (n : Nat) : List Post :=
  nlargestBy key n ws

/-- A CSV source file as seen by `pd.read_csv`: absent, present but
unparseable, or well-formed with a parsed table. -/
inductive CsvSource (α : Type) where
  | missing : CsvSource α
  | malformed : CsvSource α
  | ok : α → CsvSource α
deriving DecidableEq

/-- The exceptions `pd.read_csv` raises on the two failure modes:
`FileNotFoundError` for an absent file, `pandas.errors.ParserError`
for a malformed one. -/
inductive PdError where
  | fileNotFound : PdError
  | parserError : PdError
deriving DecidableEq, Repr

/-- `pd.read_csv` on a source file. -/
def readCsv : CsvSource α → Except PdError α
  | .missing => .error .fileNotFound
  | .malformed => .error .parserError
  | .ok t => .ok t

/-- Outcome of `load_data` (`src/app.py` lines 69-79): `stopped` is the
handled path (`st.error` plus `st.stop`, the DataUnavailable
condition), `uncaught` an exception that escapes the
`except FileNotFoundError` handler, `loaded` the two parsed tables. -/
inductive LoadResult (α β : Type) where
  | stopped : LoadResult α β
  | uncaught : PdError → LoadResult α β
  | loaded : α → β → LoadResult α β
deriving DecidableEq

/-- `load_data` (`src/app.py` lines 69-79): read the posts table, then
the edges table, inside one `try` block whose only handler catches
`FileNotFoundError`; any other exception propagates unhandled.  No
partial or default data is ever produced. -/
def load_data (ps : CsvSource (List Post)) (es : CsvSource (List EdgeRow)) :
    LoadResult (List Post) (List EdgeRow) :=
  match readCsv ps with
  | .error .fileNotFound => .stopped
  | .error e => .uncaught e
  | .ok p =>
    match readCsv es with
    | .error .fileNotFound => .stopped
    | .error e => .uncaught e
    | .ok e => .loaded p e

/-- A sample post used to evaluate the theorems on concrete inputs. -/
def samplePost : Post :=
  { post_id := "P1", platform := "Reddit", category := "Vaccines"
    content := "xyz", username := "u", user_id := "C"
    timestamp := 0, misinfo_score := 90, shares := 10, likes := 5
    comments := 1, status := "Flagged", archived := false
    archive_url := none }

/-- A one-row edge table whose two users appear in no post: used to
compare the analyzed graph against the spec's filtered graph. -/
def rowsAB : List EdgeRow := [("A", "B", 1)]

/-- An edge table with one self-loop: networkx then has a one-node
graph. -/
def rowsLoop : List EdgeRow := [("A", "A", 1)]

/-- An edge table with a self-loop next to an ordinary edge: the
self-loop adds 2 to the degree of `A`. -/
def rowsLoop2 : List EdgeRow := [("A", "B", 1), ("A", "A", 1)]

/-- Two rows for the same unordered pair `{A, B}`, in opposite
orientations and with different weights. -/
def rowsDup : List EdgeRow := [("A", "B", 2), ("B", "A", 5)]

/-- An edge table with two degree-1 users inserted in the order
`u1, u9, u2`: `u1` and `u2` tie on degree. -/
def rowsTie : List EdgeRow := [("u1", "u9", 1), ("u2", "u9", 1)]

/-- A star around `X` (degree 4) plus the edge `a-b`: produces nodes
of degree 4, 2, 2, 1 and 1, covering all three risk labels. -/
def rowsStar : List EdgeRow :=
  [("X", "a", 1), ("X", "b", 1), ("X", "c", 1), ("X", "d", 1), ("a", "b", 1)]

/-- Degrees `A:3, B:2, C:2, D:1`; restricting to degree ≥ 2 keeps
`A, B, C` and drops the edge `A-D`. -/
def rowsC10 : List EdgeRow :=
  [("A", "B", 1), ("A", "C", 1), ("A", "D", 1), ("B", "C", 1)]

/-! ### Basic graph lemmas -/

theorem edges_addNode (g : Graph) (n : String) : (addNode g n).edges = g.edges := by
  unfold addNode
  split <;> rfl

theorem mem_nodes_addNode (g : Graph) (m n : String) (h : n ∈ g.nodes) :
    n ∈ (addNode g m).nodes := by
  unfold addNode
  split
  · exact h
  · simp [h]

theorem self_mem_addNode (g : Graph) (n : String) : n ∈ (addNode g n).nodes := by
  unfold addNode
  split
  · assumption
  · simp

theorem nodup_addNode (g : Graph) (n : String) (h : g.nodes.Nodup) :
    (addNode g n).nodes.Nodup := by
  unfold addNode
  split
  · exact h
  · rename_i hn
    simp [List.nodup_append, h]
    exact hn

theorem mem_nodes_addEdge (g : Graph) (s t n : String) (w : Int) (h : n ∈ g.nodes) :
    n ∈ (addEdge g s t w).nodes :=
  mem_nodes_addNode _ _ _ (mem_nodes_addNode _ _ _ h)

theorem left_mem_nodes_addEdge (g : Graph) (s t : String) (w : Int) :
    s ∈ (addEdge g s t w).nodes :=
  mem_nodes_addNode _ _ _ (self_mem_addNode _ _)

theorem right_mem_nodes_addEdge (g : Graph) (s t : String) (w : Int) :
    t ∈ (addEdge g s t w).nodes :=
  self_mem_addNode _ _

theorem pairMatch_iff (e : EdgeRow) (s t : String) :
    pairMatch e s t = true ↔ (e.1 = s ∧ e.2.1 = t) ∨ (e.1 = t ∧ e.2.1 = s) := by
  simp [pairMatch]

theorem sameUPair_iff_pairMatch (e f : EdgeRow) :
    sameUPair e f ↔ pairMatch e f.1 f.2.1 = true := by
  simp [sameUPair, pairMatch]

theorem pairMatch_endpoints (e : EdgeRow) (s t : String) (w : Int) :
    pairMatch (e.1, e.2.1, w) s t = pairMatch e s t := rfl

theorem mem_setWeight (es : List EdgeRow) (s t : String) (w : Int) (e : EdgeRow)
    (h : e ∈ setWeight es s t w) :
    ∃ f ∈ es, f.1 = e.1 ∧ f.2.1 = e.2.1 := by
  rcases List.mem_map.mp h with ⟨f, hf, hfe⟩
  refine ⟨f, hf, ?_⟩
  by_cases hp : pairMatch f s t = true <;> simp [hp] at hfe <;> subst hfe <;> simp

theorem pairwise_setWeight (es : List EdgeRow) (s t : String) (w : Int)
    (h : es.Pairwise (fun e f => ¬ sameUPair e f)) :
    (setWeight es s t w).Pairwise (fun e f => ¬ sameUPair e f) := by
  unfold setWeight
  rw [List.pairwise_map]
  refine h.imp ?_
  intro e f hef
  by_cases he : pairMatch e s t = true <;> by_cases hf : pairMatch f s t = true <;>
    simp [he, hf, sameUPair] <;> simpa [sameUPair] using hef

theorem addEdge_WF (g : Graph) (s t : String) (w : Int) (h : GraphWF g) :
    GraphWF (addEdge g s t w) := by
  obtain ⟨hnd, hep, hpw⟩ := h
  refine ⟨nodup_addNode _ _ (nodup_addNode _ _ hnd), ?_, ?_⟩
  · intro e he
    unfold addEdge at he
    simp only at he
    split at he
    · rcases mem_setWeight _ _ _ _ _ he with ⟨f, hf, h1, h2⟩
      rcases hep f hf with ⟨hf1, hf2⟩
      rw [h1] at hf1
      rw [h2] at hf2
      exact ⟨mem_nodes_addNode _ _ _ (mem_nodes_addNode _ _ _ hf1),
             mem_nodes_addNode _ _ _ (mem_nodes_addNode _ _ _ hf2)⟩
    · rcases List.mem_append.mp he with he' | he'
      · rcases hep e he' with ⟨hf1, hf2⟩
        exact ⟨mem_nodes_addNode _ _ _ (mem_nodes_addNode _ _ _ hf1),
               mem_nodes_addNode _ _ _ (mem_nodes_addNode _ _ _ hf2)⟩
      · rcases List.mem_singleton.mp he' with rfl
        exact ⟨left_mem_nodes_addEdge g s t w, right_mem_nodes_addEdge g s t w⟩
  · unfold addEdge
    simp only
    split
    · exact pairwise_setWeight _ _ _ _ hpw
    · rename_i hne
      rw [List.pairwise_append]
      refine ⟨hpw, List.pairwise_singleton _ _, ?_⟩
      intro e he f hf
      rcases List.mem_singleton.mp hf with rfl
      intro hsp
      rcases (sameUPair_iff_pairMatch e _).mp hsp with hm
      exact hne (List.any_eq_true.mpr ⟨e, he, hm⟩)

theorem fromPandasEdgelist_WF (rows : List EdgeRow) :
    GraphWF (fromPandasEdgelist rows) := by
  have base : GraphWF ⟨[], []⟩ := ⟨List.nodup_nil, by simp, List.Pairwise.nil⟩
  unfold fromPandasEdgelist
  generalize hg : (⟨[], []⟩ : Graph) = g0
  rw [hg] at base
  clear hg
  induction rows generalizing g0 with
  | nil => exact base
  | cons r rest ih => exact ih _ (addEdge_WF _ _ _ _ base)

theorem fold_nodes_mono (rows : List EdgeRow) (g : Graph) (n : String)
    (h : n ∈ g.nodes) :
    n ∈ (rows.foldl (fun g r => addEdge g r.1 r.2.1 r.2.2) g).nodes := by
  induction rows generalizing g with
  | nil => exact h
  | cons r rest ih => exact ih _ (mem_nodes_addEdge _ _ _ _ _ h)

theorem fold_endpoints_mem (rows : List EdgeRow) (g : Graph) :
    ∀ r ∈ rows,
      r.1 ∈ (rows.foldl (fun g r => addEdge g r.1 r.2.1 r.2.2) g).nodes ∧
      r.2.1 ∈ (rows.foldl (fun g r => addEdge g r.1 r.2.1 r.2.2) g).nodes := by
  induction rows generalizing g with
  | nil => intro r hr; cases hr
  | cons q rest ih =>
    intro r hr
    simp only [List.foldl_cons]
    rcases List.mem_cons.mp hr with rfl | hr'
    · exact ⟨fold_nodes_mono _ _ _ (left_mem_nodes_addEdge g r.1 r.2.1 r.2.2),
             fold_nodes_mono _ _ _ (right_mem_nodes_addEdge g r.1 r.2.1 r.2.2)⟩
    · exact ih _ r hr'

theorem fromPandasEdgelist_endpoints_mem (rows : List EdgeRow) :
    ∀ r ∈ rows,
      r.1 ∈ (fromPandasEdgelist rows).nodes ∧
      r.2.1 ∈ (fromPandasEdgelist rows).nodes :=
  fold_endpoints_mem rows ⟨[], []⟩

theorem fold_edges_orig (rows : List EdgeRow) (g : Graph) (e : EdgeRow)
    (he : e ∈ (rows.foldl (fun g r => addEdge g r.1 r.2.1 r.2.2) g).edges) :
    (∃ f ∈ g.edges, f.1 = e.1 ∧ f.2.1 = e.2.1) ∨
      (∃ r ∈ rows, r.1 = e.1 ∧ r.2.1 = e.2.1) := by
  induction rows generalizing g with
  | nil => exact Or.inl ⟨e, by simpa using he, rfl, rfl⟩
  | cons q rest ih =>
    simp only [List.foldl_cons] at he
    rcases ih _ he with hin | hrest
    · rcases hin with ⟨f, hf, h1, h2⟩
      unfold addEdge at hf
      simp only at hf
      split at hf
      · rcases mem_setWeight _ _ _ _ _ hf with ⟨f', hf', h1', h2'⟩
        exact Or.inl ⟨f', hf', by rw [h1', h1], by rw [h2', h2]⟩
      · rcases List.mem_append.mp hf with hf' | hf'
        · exact Or.inl ⟨f, hf', h1, h2⟩
        · rcases List.mem_singleton.mp hf' with rfl
          exact Or.inr ⟨q, List.mem_cons_self _ _, h1, h2⟩
    · rcases hrest with ⟨r, hr, h1, h2⟩
      exact Or.inr ⟨r, List.mem_cons_of_mem _ hr, h1, h2⟩

theorem fromPandasEdgelist_edges_orig (rows : List EdgeRow) (e : EdgeRow)
    (he : e ∈ (fromPandasEdgelist rows).edges) :
    ∃ r ∈ rows, r.1 = e.1 ∧ r.2.1 = e.2.1 := by
  rcases fold_edges_orig rows ⟨[], []⟩ e he with h | h
  · rcases h with ⟨f, hf, _⟩
    cases hf
  · exact h

theorem deg_list_eq (n : String) :
    ∀ es : List EdgeRow, (∀ e ∈ es, e.1 ≠ e.2.1) →
      (es.map (fun e =>
        if e.1 = n ∧ e.2.1 = n then 2
        else if e.1 = n ∨ e.2.1 = n then 1
        else 0)).sum
        = (es.filterMap (fun e =>
            if e.1 = n then some e.2.1
            else if e.2.1 = n then some e.1
            else none)).length
  | [], _ => rfl
  | e :: es, h => by
    have hrec := deg_list_eq n es (fun f hf => h f (List.mem_cons_of_mem _ hf))
    have he : e.1 ≠ e.2.1 := h e (List.mem_cons_self _ _)
    by_cases h1 : e.1 = n <;> by_cases h2 : e.2.1 = n
    · exact absurd (h1.trans h2.symm) he
    · simp [List.filterMap_cons, h1, h2, hrec, Nat.add_comm]
    · simp [List.filterMap_cons, h1, h2, hrec, Nat.add_comm]
    · simp [List.filterMap_cons, h1, h2, hrec]

theorem degree_eq_nbrs_length (g : Graph) (n : String)
    (hlf : ∀ e ∈ g.edges, e.1 ≠ e.2.1) :
    degree g n = (nbrs g n).length :=
  deg_list_eq n g.edges hlf

theorem nbrs_nodup (g : Graph) (n : String)
    (hpw : g.edges.Pairwise (fun e f => ¬ sameUPair e f)) :
    (nbrs g n).Nodup := by
  unfold nbrs
  refine List.Pairwise.filterMap _ ?_ hpw
  intro e f hef x hx y hy hxy
  subst hxy
  apply hef
  simp only [Option.mem_def] at hx hy
  by_cases he1 : e.1 = n <;> by_cases hf1 : f.1 = n <;> simp only [he1, hf1, if_true, if_false, ite_true, ite_false, Option.some.injEq, reduceCtorEq] at hx hy
  · exact Or.inl ⟨he1.trans hf1.symm, hx.trans hy.symm⟩
  · by_cases hf2 : f.2.1 = n
    · simp only [hf2, ite_true, Option.some.injEq] at hy
      exact Or.inr ⟨he1.trans hf2.symm, hx.trans hy.symm⟩
    · simp [hf2] at hy
  · by_cases he2 : e.2.1 = n
    · simp only [he2, ite_true, Option.some.injEq] at hx
      exact Or.inr ⟨hx.trans hy.symm, he2.trans hf1.symm⟩
    · simp [he2] at hx
  · by_cases he2 : e.2.1 = n
    · by_cases hf2 : f.2.1 = n
      · simp only [he2, hf2, ite_true, Option.some.injEq] at hx hy
        exact Or.inl ⟨hx.trans hy.symm, he2.trans hf2.symm⟩
      · simp [hf2] at hy
    · simp [he2] at hx

theorem nbrs_subset (g : Graph) (n : String)
    (hep : ∀ e ∈ g.edges, e.1 ∈ g.nodes ∧ e.2.1 ∈ g.nodes) :
    ∀ x ∈ nbrs g n, x ∈ g.nodes := by
  intro x hx
  unfold nbrs at hx
  rcases List.mem_filterMap.mp hx with ⟨e, he, hfe⟩
  rcases hep e he with ⟨h1, h2⟩
  by_cases he1 : e.1 = n
  · simp only [he1, ite_true, Option.some.injEq] at hfe
    exact hfe ▸ h2
  · by_cases he2 : e.2.1 = n
    · simp only [he1, he2, ite_true, ite_false, Option.some.injEq] at hfe
      exact hfe ▸ h1
    · simp [he1, he2] at hfe

theorem self_not_mem_nbrs (g : Graph) (n : String)
    (hlf : ∀ e ∈ g.edges, e.1 ≠ e.2.1) :
    n ∉ nbrs g n := by
  intro hn
  unfold nbrs at hn
  rcases List.mem_filterMap.mp hn with ⟨e, he, hfe⟩
  have hne := hlf e he
  by_cases he1 : e.1 = n
  · simp only [he1, ite_true, Option.some.injEq] at hfe
    exact hne (he1.trans hfe.symm)
  · by_cases he2 : e.2.1 = n
    · simp only [he1, he2, ite_true, ite_false, Option.some.injEq] at hfe
    · simp [he1, he2] at hfe

theorem degree_succ_le_numNodes (g : Graph) (n : String)
    (hwf : GraphWF g) (hlf : ∀ e ∈ g.edges, e.1 ≠ e.2.1) (hn : n ∈ g.nodes) :
    degree g n + 1 ≤ numNodes g := by
  obtain ⟨hnd, hep, hpw⟩ := hwf
  have hsub : (n :: nbrs g n) ⊆ g.nodes := by
    intro x hx
    rcases List.mem_cons.mp hx with rfl | hx'
    · exact hn
    · exact nbrs_subset g n hep x hx'
  have hnodup : (n :: nbrs g n).Nodup := by
    rw [List.nodup_cons]
    exact ⟨self_not_mem_nbrs g n hlf, nbrs_nodup g n hpw⟩
  have := (List.subperm_of_subset hnodup hsub).length_le
  simpa [degree_eq_nbrs_length g n hlf, numNodes, Nat.add_comm] using this

theorem pairMatch_congr (a b s t : String) (w : Int)
    (h : pairMatch (a, b, w) s t = true) (e : EdgeRow) :
    pairMatch e s t = pairMatch e a b := by
  rcases (pairMatch_iff (a, b, w) s t).mp h with ⟨h1, h2⟩ | ⟨h1, h2⟩ <;>
    simp only at h1 h2
  · subst h1
    subst h2
    rfl
  · subst h1
    subst h2
    simp only [pairMatch]
    exact decide_eq_decide.mpr or_comm

theorem pairMatch_shared (e f : EdgeRow) (s t : String)
    (he : pairMatch e s t = true) (hf : pairMatch f s t = true) :
    sameUPair e f := by
  rw [sameUPair_iff_pairMatch]
  rcases (pairMatch_iff f s t).mp hf with ⟨h1, h2⟩ | ⟨h1, h2⟩
  · rw [h1, h2]
    exact he
  · rw [h1, h2]
    simp only [pairMatch, decide_eq_true_iff] at he ⊢
    tauto

theorem hasEdge_cons_tail (e : EdgeRow) (es : List EdgeRow) (a b : String)
    (hhas : hasEdge (e :: es) a b = true) (hne : pairMatch e a b = false) :
    hasEdge es a b = true := by
  unfold hasEdge at *
  simp only [List.any_cons, hne, Bool.false_or] at hhas
  exact hhas

theorem pairMatch_twice (e : EdgeRow) (a b s t : String) (w : Int)
    (h1 : pairMatch e s t = true) (h2 : pairMatch e a b = true) :
    pairMatch (a, b, w) s t = true := by
  simp only [pairMatch, decide_eq_true_iff] at h1 h2 ⊢
  rcases h1 with ⟨x1, x2⟩ | ⟨x1, x2⟩ <;> rcases h2 with ⟨y1, y2⟩ | ⟨y1, y2⟩
  · exact Or.inl ⟨y1.symm.trans x1, y2.symm.trans x2⟩
  · exact Or.inr ⟨y2.symm.trans x2, y1.symm.trans x1⟩
  · exact Or.inr ⟨y1.symm.trans x1, y2.symm.trans x2⟩
  · exact Or.inl ⟨y2.symm.trans x2, y1.symm.trans x1⟩

theorem setWeight_cons (e : EdgeRow) (es : List EdgeRow) (a b : String) (w : Int) :
    setWeight (e :: es) a b w =
      (if pairMatch e a b then (e.1, e.2.1, w) else e) :: setWeight es a b w := rfl

theorem find?_setWeight_match (es : List EdgeRow) (a b s t : String) (w : Int)
    (hm : pairMatch (a, b, w) s t = true) (hhas : hasEdge es a b = true) :
    ((setWeight es a b w).find? (fun e => pairMatch e s t)).map (fun e => e.2.2)
      = some w := by
  induction es with
  | nil => cases hhas
  | cons e es ih =>
    rw [setWeight_cons]
    by_cases hea : pairMatch e a b = true
    · rw [if_pos hea]
      have hps : pairMatch (e.1, e.2.1, w) s t = true := by
        rw [pairMatch_endpoints, pairMatch_congr a b s t w hm e]
        exact hea
      simp only [List.find?, hps]
      rfl
    · rw [if_neg hea]
      have hps : pairMatch e s t = false := by
        rw [pairMatch_congr a b s t w hm e]
        simpa using hea
      simp only [List.find?, hps]
      exact ih (hasEdge_cons_tail e es a b hhas (by simpa using hea))

theorem find?_setWeight_nomatch (es : List EdgeRow) (a b s t : String) (w : Int)
    (hm : pairMatch (a, b, w) s t = false) :
    ((setWeight es a b w).find? (fun e => pairMatch e s t)).map (fun e => e.2.2)
      = (es.find? (fun e => pairMatch e s t)).map (fun e => e.2.2) := by
  induction es with
  | nil => rfl
  | cons e es ih =>
    rw [setWeight_cons]
    by_cases hea : pairMatch e a b = true
    · have hps : pairMatch e s t = false := by
        by_contra hc
        rw [Bool.not_eq_false] at hc
        rw [pairMatch_twice e a b s t w hc hea] at hm
        cases hm
      rw [if_pos hea]
      have hps2 : pairMatch (e.1, e.2.1, w) s t = false := by
        rw [pairMatch_endpoints]
        exact hps
      simp only [List.find?, hps, hps2]
      exact ih
    · rw [if_neg hea]
      by_cases hps : pairMatch e s t = true
      · simp only [List.find?, hps]
      · rw [Bool.not_eq_true] at hps
        simp only [List.find?, hps]
        exact ih

theorem edgeWeight_addEdge (g : Graph) (a b s t : String) (w : Int) :
    edgeWeight (addEdge g a b w) s t =
      if pairMatch (a, b, w) s t then some w else edgeWeight g s t := by
  unfold edgeWeight addEdge
  simp only
  by_cases hm : pairMatch (a, b, w) s t = true
  · rw [if_pos hm]
    by_cases hhas : hasEdge g.edges a b = true
    · rw [if_pos hhas]
      exact find?_setWeight_match g.edges a b s t w hm hhas
    · rw [if_neg hhas, List.find?_append]
      have hnone : g.edges.find? (fun e => pairMatch e s t) = none := by
        rw [List.find?_eq_none]
        intro e he hpe
        apply hhas
        rw [pairMatch_congr a b s t w hm e] at hpe
        exact List.any_eq_true.mpr ⟨e, he, hpe⟩
      rw [hnone]
      simp only [Option.none_or]
      simp only [List.find?, hm]
      rfl
  · rw [if_neg hm]
    rw [Bool.not_eq_true] at hm
    by_cases hhas : hasEdge g.edges a b = true
    · rw [if_pos hhas]
      exact find?_setWeight_nomatch g.edges a b s t w hm
    · rw [if_neg hhas, List.find?_append]
      simp only [List.find?, hm, Option.or_none]

theorem edgeWeight_fold (rows : List EdgeRow) (g : Graph) (s t : String) :
    edgeWeight (rows.foldl (fun g r => addEdge g r.1 r.2.1 r.2.2) g) s t =
      rows.foldl (fun acc r => if pairMatch r s t then some r.2.2 else acc)
        (edgeWeight g s t) := by
  induction rows generalizing g with
  | nil => rfl
  | cons r rest ih =>
    simp only [List.foldl_cons]
    rw [ih]
    congr 1
    exact edgeWeight_addEdge g r.1 r.2.1 s t r.2.2

theorem edgeWeight_fromPandasEdgelist (rows : List EdgeRow) (s t : String) :
    edgeWeight (fromPandasEdgelist rows) s t = lastMatchWeight rows s t := by
  unfold fromPandasEdgelist lastMatchWeight
  rw [edgeWeight_fold]
  rfl

theorem countP_pairMatch_le_one (es : List EdgeRow) (s t : String)
    (hpw : es.Pairwise (fun e f => ¬ sameUPair e f)) :
    es.countP (fun e => pairMatch e s t) ≤ 1 := by
  induction es with
  | nil => simp
  | cons e es ih =>
    rcases List.pairwise_cons.mp hpw with ⟨hhead, htail⟩
    by_cases hp : pairMatch e s t = true
    · rw [List.countP_cons_of_pos _ _ (by simpa using hp)]
      have hz : es.countP (fun e => pairMatch e s t) = 0 := by
        rw [List.countP_eq_zero]
        intro f hf hpf
        exact hhead f hf (pairMatch_shared e f s t hp (by simpa using hpf))
      omega
    · rw [List.countP_cons_of_neg _ _ (by simpa using hp)]
      exact ih htail

theorem lastMatchWeight_isSome (rows : List EdgeRow) (s t : String)
    (h : ∃ r ∈ rows, pairMatch r s t = true) :
    ∃ v, lastMatchWeight rows s t = some v := by
  unfold lastMatchWeight
  have main : ∀ (l : List EdgeRow) (acc : Option Int),
      ((∃ r ∈ l, pairMatch r s t = true) ∨ ∃ v, acc = some v) →
      ∃ v, l.foldl (fun acc r => if pairMatch r s t then some r.2.2 else acc) acc
        = some v := by
    intro l
    induction l with
    | nil =>
      intro acc hacc
      rcases hacc with ⟨r, hr, _⟩ | hv
      · cases hr
      · exact hv
    | cons r rest ih =>
      intro acc hacc
      simp only [List.foldl_cons]
      by_cases hp : pairMatch r s t = true
      · exact ih _ (Or.inr ⟨r.2.2, by rw [if_pos hp]⟩)
      · refine ih _ ?_
        rcases hacc with ⟨q, hq, hpq⟩ | hv
        · rcases List.mem_cons.mp hq with rfl | hq'
          · exact absurd hpq hp
          · exact Or.inl ⟨q, hq', hpq⟩
        · exact Or.inr (by rw [if_neg hp]; exact hv)
  exact main rows none (Or.inl h)

theorem hasEdge_fromPandasEdgelist (rows : List EdgeRow) (s t : String)
    (h : ∃ r ∈ rows, pairMatch r s t = true) :
    hasEdge (fromPandasEdgelist rows).edges s t = true := by
  rcases lastMatchWeight_isSome rows s t h with ⟨v, hv⟩
  have hw : edgeWeight (fromPandasEdgelist rows) s t = some v :=
    (edgeWeight_fromPandasEdgelist rows s t).trans hv
  unfold edgeWeight at hw
  rcases Option.map_eq_some'.mp hw with ⟨e, he, _⟩
  have hmem := List.mem_of_find?_eq_some he
  have hpe := List.find?_some he
  exact List.any_eq_true.mpr ⟨e, hmem, hpe⟩

theorem degree_addEdge_existing (g : Graph) (s t : String) (w : Int)
    (h : hasEdge g.edges s t = true) (n : String) :
    degree (addEdge g s t w) n = degree g n := by
  unfold degree addEdge
  simp only [if_pos h]
  unfold setWeight
  rw [List.map_map]
  apply congrArg
  apply List.map_congr_left
  intro e he
  by_cases hp : pairMatch e s t = true <;> simp [hp]

theorem mem_insAsc (key : α → Int) (a x : α) (l : List α) :
    x ∈ insAsc key a l ↔ x = a ∨ x ∈ l := by
  induction l with
  | nil => simp [insAsc]
  | cons y ys ih =>
    unfold insAsc
    by_cases h : key a ≤ key y
    · simp [h]
    · simp only [h, if_false, ite_false, List.mem_cons, ih]
      tauto

theorem pairwise_insAsc (key : α → Int) (a : α) (l : List α)
    (h : l.Pairwise (fun u v => key u ≤ key v)) :
    (insAsc key a l).Pairwise (fun u v => key u ≤ key v) := by
  induction l with
  | nil => simp [insAsc]
  | cons y ys ih =>
    rcases List.pairwise_cons.mp h with ⟨hy, hys⟩
    unfold insAsc
    by_cases hk : key a ≤ key y
    · rw [if_pos hk, List.pairwise_cons]
      constructor
      · intro z hz
        rcases List.mem_cons.mp hz with rfl | hz'
        · exact hk
        · exact hk.trans (hy z hz')
      · exact h
    · rw [if_neg hk, List.pairwise_cons]
      constructor
      · intro z hz
        rcases (mem_insAsc key a z ys).mp hz with rfl | hz'
        · exact le_of_lt (lt_of_not_le hk)
        · exact hy z hz'
      · exact ih hys

theorem sortAsc_cons (key : α → Int) (x : α) (l : List α) :
    sortAsc key (x :: l) = insAsc key x (sortAsc key l) := rfl

theorem pairwise_sortAsc (key : α → Int) (l : List α) :
    (sortAsc key l).Pairwise (fun u v => key u ≤ key v) := by
  induction l with
  | nil => simp [sortAsc]
  | cons x l ih =>
    rw [sortAsc_cons]
    exact pairwise_insAsc key x _ ih

theorem mem_sortAsc (key : α → Int) (x : α) (l : List α) :
    x ∈ sortAsc key l ↔ x ∈ l := by
  induction l with
  | nil => simp [sortAsc]
  | cons y ys ih =>
    rw [sortAsc_cons, mem_insAsc, ih, List.mem_cons]

theorem length_insAsc (key : α → Int) (a : α) (l : List α) :
    (insAsc key a l).length = l.length + 1 := by
  induction l with
  | nil => rfl
  | cons y ys ih =>
    unfold insAsc
    by_cases h : key a ≤ key y <;> simp [h, ih]

theorem length_sortAsc (key : α → Int) (l : List α) :
    (sortAsc key l).length = l.length := by
  induction l with
  | nil => rfl
  | cons y ys ih =>
    rw [sortAsc_cons, length_insAsc, ih, List.length_cons]

theorem mem_pandasSortDesc (key : α → Int) (x : α) (l : List α) :
    x ∈ pandasSortDesc key l ↔ x ∈ l := by
  unfold pandasSortDesc
  rw [List.mem_reverse, mem_sortAsc]

theorem length_pandasSortDesc (key : α → Int) (l : List α) :
    (pandasSortDesc key l).length = l.length := by
  unfold pandasSortDesc
  rw [List.length_reverse, length_sortAsc]

theorem pairwise_pandasSortDesc (key : α → Int) (l : List α) :
    (pandasSortDesc key l).Pairwise (fun u v => key v ≤ key u) := by
  unfold pandasSortDesc
  rw [List.pairwise_reverse]
  exact pairwise_sortAsc key l

theorem sum_map_filter (es : List EdgeRow) (q : EdgeRow → Bool) (ind : EdgeRow → Nat) :
    ((es.filter q).map ind).sum = (es.map (fun e => if q e then ind e else 0)).sum := by
  induction es with
  | nil => rfl
  | cons e es ih =>
    by_cases h : q e = true <;>
      simp [List.filter_cons, h, ih]

theorem degree_subgraph_eq_restricted (g : Graph) (keep : List String) (n : String) :
    degree (subgraph g keep) n = restrictedDegree g keep n := by
  unfold degree subgraph restrictedDegree
  simp only
  rw [sum_map_filter]
  apply congrArg
  apply List.map_congr_left
  intro e he
  by_cases h1 : e.1 ∈ keep <;> by_cases h2 : e.2.1 ∈ keep <;> simp [h1, h2]

theorem matchHere_eq_litHere :
    ∀ (pat s : List Char), '.' ∉ pat → matchHere pat s = litHere pat s
  | [], s, _ => rfl
  | p :: ps, [], _ => rfl
  | p :: ps, c :: cs, h => by
    have hp : p ≠ '.' := fun hc => h (hc ▸ List.mem_cons_self _ _)
    have hps : '.' ∉ ps := fun hc => h (List.mem_cons_of_mem _ hc)
    unfold matchHere litHere charMatch litCharMatch
    rw [if_neg hp, matchHere_eq_litHere ps cs hps]

theorem searchFrom_eq_litSearchFrom (pat : List Char) (hp : '.' ∉ pat) :
    ∀ s : List Char, searchFrom pat s = litSearchFrom pat s
  | [] => by
    unfold searchFrom litSearchFrom
    exact matchHere_eq_litHere pat [] hp
  | c :: cs => by
    unfold searchFrom litSearchFrom
    rw [matchHere_eq_litHere pat (c :: cs) hp, searchFrom_eq_litSearchFrom pat hp cs]

/-! ### Claim theorems -/

/-- C1: a post appears in the working set produced by the filter iff it is a
row of the posts table whose platform is among the selected platforms, whose
category is among the selected categories, and whose misinfo score is at
least the minimum; an explicitly empty platform (or category) selection
excludes every row rather than acting as no filter. -/
theorem filterPosts_mem_iff (posts : List Post) (plats cats : List String)
    (ms : Int) (p : Post) :
    (p ∈ filterPosts posts plats cats ms ↔
      p ∈ posts ∧ p.platform ∈ plats ∧ p.category ∈ cats ∧ ms ≤ p.misinfo_score)
    ∧ (plats = [] → filterPosts posts plats cats ms = [])
    ∧ (cats = [] → filterPosts posts plats cats ms = []) := by
  refine ⟨?_, ?_, ?_⟩
  · simp [filterPosts, List.mem_filter, and_assoc]
  · rintro rfl
    simp [filterPosts]
  · rintro rfl
    simp [filterPosts]

/-- Concrete instance of `filterPosts_mem_iff`: explicitly empty platform or
category selections exclude the sample post. -/
theorem filterPosts_mem_iff_wit :
    filterPosts [samplePost] [] ["Vaccines"] 0 = [] ∧
    filterPosts [samplePost] ["Reddit"] [] 0 = [] :=
  ⟨(filterPosts_mem_iff [samplePost] [] ["Vaccines"] 0 samplePost).2.1 rfl,
   (filterPosts_mem_iff [samplePost] ["Reddit"] [] 0 samplePost).2.2 rfl⟩

/-- C6: the working set is a subsequence of the posts table (original
relative order preserved, no re-sorting), and filtering an
already-filtered working set again with the same criteria yields the
identical list. -/
theorem filterPosts_sublist_and_idem (posts : List Post)
    (plats cats : List String) (ms : Int) :
    (filterPosts posts plats cats ms).Sublist posts ∧
    filterPosts (filterPosts posts plats cats ms) plats cats ms =
      filterPosts posts plats cats ms := by
  constructor
  · exact List.filter_sublist posts
  · simp [filterPosts, List.filter_filter]

/-- C4 counterexample: the search term is compiled as a regular
expression, not a literal.  The term `"."` selects the sample post whose
content is `"xyz"`, although `"."` is not a literal substring of
`"xyz"`. -/
theorem displayPosts_regex_cex :
    displayPosts [samplePost] "." = [samplePost] ∧
    litSubstr "." samplePost.content = false := by
  constructor
  · decide
  · decide

/-- C4 (amended): a null or empty term returns the working set
unchanged (Python's falsy test precedes any matching, so this holds
for every working set); for a term inside the modelled regex fragment
(`modeledTerm`: ASCII characters that are literals or the `.`
metacharacter) a post with ASCII content is returned iff the content
matches the term as a case-insensitive regular expression
(`re.search` under `re.IGNORECASE`); and when such a term moreover
contains no `.` — that is, no metacharacter at all — the regex match
coincides with the case-insensitive literal substring match the
claim describes. -/
theorem displayPosts_spec (ws : List Post) (term : String) (p : Post)
    (c : String) :
    displayPosts ws "" = ws ∧
    (modeledTerm term = true → asciiString p.content = true →
      (p ∈ displayPosts ws term ↔
        p ∈ ws ∧ (term = "" ∨ strContainsCI p.content term = true))) ∧
    (modeledTerm term = true → '.' ∉ term.data → asciiString c = true →
      strContainsCI c term = litSubstr term c) := by
  refine ⟨by simp [displayPosts], ?_, ?_⟩
  · intro _ _
    by_cases h : term = ""
    · subst h
      simp [displayPosts]
    · simp [displayPosts, h, List.mem_filter]
  · intro _ hdot _
    exact searchFrom_eq_litSearchFrom term.data hdot c.data

/-- Concrete instance of `displayPosts_spec`: the term `"xy"` lies in
the modelled fragment and has no metacharacter, so membership follows
the regex search and the regex search agrees with the literal
substring match; the empty term returns the working set unchanged. -/
theorem displayPosts_spec_wit :
    displayPosts [samplePost] "" = [samplePost] ∧
    (samplePost ∈ displayPosts [samplePost] "xy" ↔
      samplePost ∈ [samplePost] ∧
        ("xy" = "" ∨ strContainsCI samplePost.content "xy" = true)) ∧
    strContainsCI "xyz" "xy" = litSubstr "xy" "xyz" :=
  ⟨(displayPosts_spec [samplePost] "xy" samplePost "xyz").1,
   (displayPosts_spec [samplePost] "xy" samplePost "xyz").2.1
     (by decide) (by decide),
   (displayPosts_spec [samplePost] "xy" samplePost "xyz").2.2
     (by decide) (by decide) (by decide)⟩

/-- C7: every aggregator operation — counts by key, timeline, score
histogram, top-by-field, content search — returns an empty result on
the empty working set (and, being a total function, raises nothing). -/
theorem aggregators_empty (f : Post → String) (key : Post → Int)
    (n bins : Nat) (term : String) :
    countsByKey [] f = [] ∧ timeline [] = [] ∧ scoreHistogram [] bins = [] ∧
    topByField [] key n = [] ∧ displayPosts [] term = [] := by
  refine ⟨rfl, rfl, rfl, ?_, ?_⟩
  · simp [topByField, nlargestBy]
  · unfold displayPosts
    split <;> rfl

/-- C8 counterexample: a present-but-malformed edges table does not
take the handled `DataUnavailable` path (`st.error` + `st.stop`); the
parser exception escapes the `except FileNotFoundError` handler. -/
theorem load_data_malformed_cex :
    load_data (.ok [samplePost]) .malformed = .uncaught .parserError ∧
    load_data (.ok [samplePost]) .malformed ≠ .stopped := by
  constructor
  · rfl
  · decide

/-- C8 (amended): the handled `DataUnavailable` stop occurs iff a
source file is missing (posts first, edges only if posts parsed); a
malformed source instead raises an unhandled parser error — also fatal
with no partial result; and the two tables are returned exactly when
both sources are well-formed, with no other side effect or substituted
default. -/
theorem load_data_spec (ps : CsvSource (List Post))
    (es : CsvSource (List EdgeRow)) :
    (load_data ps es = .stopped ↔
      ps = .missing ∨ (∃ p, ps = .ok p ∧ es = .missing)) ∧
    (∀ p e, load_data ps es = .loaded p e ↔ ps = .ok p ∧ es = .ok e) ∧
    (load_data ps es = .uncaught .parserError ↔
      ps = .malformed ∨ (∃ p, ps = .ok p ∧ es = .malformed)) := by
  cases ps <;> cases es <;> simp [load_data, readCsv]

/-- C2 counterexample: with a working set whose only user is `C`, the
analyzed graph still contains the nodes `A` and `B` of an edge with
neither endpoint allowed, while the spec's restricted graph is empty —
the graph topology does not follow the active filter. -/
theorem networkGraph_ignores_filter_cex :
    (networkGraph [samplePost] rowsAB ["Reddit"] ["Vaccines"] 0).nodes
      = ["A", "B"] ∧
    (filterPosts [samplePost] ["Reddit"] ["Vaccines"] 0).map
      (fun p => p.user_id) = ["C"] ∧
    (specAnalyze rowsAB
      ((filterPosts [samplePost] ["Reddit"] ["Vaccines"] 0).map
        (fun p => p.user_id))).nodes = [] := by
  refine ⟨by decide, by decide, by decide⟩

/-- C2 (amended): the Network tab always analyzes the full, unfiltered
edge table: the graph is invariant under any change of filter
criteria, and every edge row's endpoints appear as nodes even when
neither lies in the working set's users. -/
theorem networkGraph_full_edges (posts : List Post) (rows : List EdgeRow)
    (plats cats plats' cats' : List String) (ms ms' : Int) :
    networkGraph posts rows plats cats ms =
      networkGraph posts rows plats' cats' ms' ∧
    (∀ r ∈ rows,
      r.1 ∈ (networkGraph posts rows plats cats ms).nodes ∧
      r.2.1 ∈ (networkGraph posts rows plats cats ms).nodes) :=
  ⟨rfl, fromPandasEdgelist_endpoints_mem rows⟩

/-- Concrete instance of `networkGraph_full_edges`: both endpoints of
the edge row `(A, B, 1)` are nodes of the analyzed graph although the
working set is empty. -/
theorem networkGraph_full_edges_wit :
    "A" ∈ (networkGraph [samplePost] rowsAB [] [] 5).nodes ∧
    "B" ∈ (networkGraph [samplePost] rowsAB [] [] 5).nodes :=
  (networkGraph_full_edges [samplePost] rowsAB [] [] [] [] 5 7).2
    ("A", "B", 1) (by decide)

/-- C3 counterexample: networkx assigns centrality 1, not 0, to the
node of a one-node graph, and a self-loop (which adds 2 to the degree)
pushes the centrality of `A` to 3, outside `[0, 1]`. -/
theorem degreeCentrality_networkx_cex :
    numNodes (fromPandasEdgelist rowsLoop) = 1 ∧
    degreeCentrality (fromPandasEdgelist rowsLoop) "A" = 1 ∧
    ¬ degreeCentrality (fromPandasEdgelist rowsLoop) "A" = 0 ∧
    degreeCentrality (fromPandasEdgelist rowsLoop2) "A" = 3 ∧
    ¬ degreeCentrality (fromPandasEdgelist rowsLoop2) "A" ≤ 1 := by
  have h3 : degreeCentrality (fromPandasEdgelist rowsLoop2) "A" = 3 := by
    have h1 : degree (fromPandasEdgelist rowsLoop2) "A" = 3 := by decide
    have h2 : numNodes (fromPandasEdgelist rowsLoop2) = 2 := by decide
    rw [degreeCentrality, h1, h2]
    norm_num
  refine ⟨by decide, by decide, by decide, h3, ?_⟩
  rw [h3]
  norm_num

/-- C3 (amended): for every graph built from the edge table,
`DegreeCentrality(node) = Degree(node) / (TotalNodes - 1)` whenever the
graph has at least two nodes; on a one-node graph networkx assigns 1
(not 0; the empty graph has no nodes at all); and the centrality of
every node lies in `[0, 1]` provided the edge table has no self-loops
(a self-loop adds 2 to the degree and can push the value above 1). -/
theorem degreeCentrality_spec (rows : List EdgeRow) (n : String) :
    (2 ≤ numNodes (fromPandasEdgelist rows) →
      degreeCentrality (fromPandasEdgelist rows) n =
        (degree (fromPandasEdgelist rows) n : ℚ) /
          ((numNodes (fromPandasEdgelist rows) : ℚ) - 1)) ∧
    (numNodes (fromPandasEdgelist rows) = 1 →
      degreeCentrality (fromPandasEdgelist rows) n = 1) ∧
    ((∀ r ∈ rows, r.1 ≠ r.2.1) → n ∈ (fromPandasEdgelist rows).nodes →
      0 ≤ degreeCentrality (fromPandasEdgelist rows) n ∧
        degreeCentrality (fromPandasEdgelist rows) n ≤ 1) := by
  refine ⟨?_, ?_, ?_⟩
  · intro h2
    rw [degreeCentrality, if_neg (by omega)]
  · intro h1
    rw [degreeCentrality, if_pos (by omega)]
  · intro hlf hn
    have hwf := fromPandasEdgelist_WF rows
    have hlf' : ∀ e ∈ (fromPandasEdgelist rows).edges, e.1 ≠ e.2.1 := by
      intro e he
      rcases fromPandasEdgelist_edges_orig rows e he with ⟨r, hr, h1, h2⟩
      rw [← h1, ← h2]
      exact hlf r hr
    by_cases hsmall : numNodes (fromPandasEdgelist rows) ≤ 1
    · rw [degreeCentrality, if_pos hsmall]
      norm_num
    · rw [degreeCentrality, if_neg hsmall]
      have hd := degree_succ_le_numNodes _ n hwf hlf' hn
      have hnn : 2 ≤ numNodes (fromPandasEdgelist rows) := by omega
      have hpos : (0 : ℚ) < (numNodes (fromPandasEdgelist rows) : ℚ) - 1 := by
        have hc : (2 : ℚ) ≤ (numNodes (fromPandasEdgelist rows) : ℚ) := by
          exact_mod_cast hnn
        linarith
      constructor
      · exact div_nonneg (Nat.cast_nonneg _) (le_of_lt hpos)
      · rw [div_le_one hpos]
        have hc : (degree (fromPandasEdgelist rows) n : ℚ) + 1 ≤
            (numNodes (fromPandasEdgelist rows) : ℚ) := by
          exact_mod_cast hd
        linarith

/-- Concrete instance of `degreeCentrality_spec`: on the two-node graph
`A-B` the formula and the bounds hold; on the one-node graph with a
self-loop networkx assigns centrality 1. -/
theorem degreeCentrality_spec_wit :
    degreeCentrality (fromPandasEdgelist rowsAB) "A" =
      (degree (fromPandasEdgelist rowsAB) "A" : ℚ) /
        ((numNodes (fromPandasEdgelist rowsAB) : ℚ) - 1) ∧
    degreeCentrality (fromPandasEdgelist rowsLoop) "A" = 1 ∧
    (0 ≤ degreeCentrality (fromPandasEdgelist rowsAB) "A" ∧
      degreeCentrality (fromPandasEdgelist rowsAB) "A" ≤ 1) :=
  ⟨(degreeCentrality_spec rowsAB "A").1 (by decide),
   (degreeCentrality_spec rowsLoop "A").2.1 (by decide),
   (degreeCentrality_spec rowsAB "A").2.2 (by decide) (by decide)⟩

/-- C9: when the edge table holds several rows for the same unordered
pair of users, the graph stores exactly one edge for that pair, its
weight is the weight of the last such row (earlier weights are
overwritten, not summed), and appending yet another duplicate row
changes no node's degree — the pair contributes to each degree only
once. -/
theorem duplicate_rows_single_edge (rows : List EdgeRow) (s t : String)
    (h : ∃ r ∈ rows, pairMatch r s t = true) :
    (fromPandasEdgelist rows).edges.countP (fun e => pairMatch e s t) = 1 ∧
    edgeWeight (fromPandasEdgelist rows) s t = lastMatchWeight rows s t ∧
    (∀ (n : String) (w : Int),
      degree (fromPandasEdgelist (rows ++ [(s, t, w)])) n =
        degree (fromPandasEdgelist rows) n) := by
  have hhas := hasEdge_fromPandasEdgelist rows s t h
  refine ⟨?_, edgeWeight_fromPandasEdgelist rows s t, ?_⟩
  · have hle := countP_pairMatch_le_one (fromPandasEdgelist rows).edges s t
      (fromPandasEdgelist_WF rows).2.2
    have hge : 0 < (fromPandasEdgelist rows).edges.countP
        (fun e => pairMatch e s t) := by
      rw [List.countP_pos_iff]
      rcases List.any_eq_true.mp hhas with ⟨e, he, hpe⟩
      exact ⟨e, he, by simpa using hpe⟩
    omega
  · intro n w
    have hsplit : fromPandasEdgelist (rows ++ [(s, t, w)]) =
        addEdge (fromPandasEdgelist rows) s t w := by
      unfold fromPandasEdgelist
      rw [List.foldl_append]
      rfl
    rw [hsplit]
    exact degree_addEdge_existing (fromPandasEdgelist rows) s t w hhas n

/-- Concrete instance of `duplicate_rows_single_edge`: the rows
`(A,B,2)` and `(B,A,5)` produce one stored edge for `{A, B}` with
weight 5 (the last row), and appending a further duplicate row leaves
the degree of `A` unchanged. -/
theorem duplicate_rows_single_edge_wit :
    (fromPandasEdgelist rowsDup).edges.countP
      (fun e => pairMatch e "A" "B") = 1 ∧
    edgeWeight (fromPandasEdgelist rowsDup) "A" "B" = some 5 ∧
    degree (fromPandasEdgelist (rowsDup ++ [("A", "B", 7)])) "A" =
      degree (fromPandasEdgelist rowsDup) "A" := by
  have h := duplicate_rows_single_edge rowsDup "A" "B" (by decide)
  exact ⟨h.1, h.2.1.trans (by decide), h.2.2 "A" 7⟩

/-- C10: for each node retained by the minimum-connection restriction,
the hover text reports the degree recomputed on the induced subgraph
together with the degree centrality of the full graph; on `rowsC10`
with threshold 2 the node `B` is reported with subgraph degree 2 but
full-graph centrality 2/3, while the centrality of the displayed
subgraph itself would be 1 — the two reported metrics are inconsistent. -/
theorem nodeReport_spec (rows : List EdgeRow) (k : Nat) (n : String)
    (hn : n ∈ minConnFilter (fromPandasEdgelist rows) k) :
    (nodeReport (fromPandasEdgelist rows) k n).1 =
      restrictedDegree (fromPandasEdgelist rows)
        (minConnFilter (fromPandasEdgelist rows) k) n ∧
    (nodeReport (fromPandasEdgelist rows) k n).2 =
      degreeCentrality (fromPandasEdgelist rows) n ∧
    nodeReport (fromPandasEdgelist rowsC10) 2 "B" =
      (2, degreeCentrality (fromPandasEdgelist rowsC10) "B") ∧
    degreeCentrality (fromPandasEdgelist rowsC10) "B" = 2 / 3 ∧
    degreeCentrality
      (subgraph (fromPandasEdgelist rowsC10)
        (minConnFilter (fromPandasEdgelist rowsC10) 2)) "B" = 1 ∧
    (2 / 3 : ℚ) ≠ 1 := by
  refine ⟨degree_subgraph_eq_restricted _ _ n, rfl, ?_, ?_, ?_, by norm_num⟩
  · unfold nodeReport
    congr 1
  · have h1 : degree (fromPandasEdgelist rowsC10) "B" = 2 := by decide
    have h2 : numNodes (fromPandasEdgelist rowsC10) = 4 := by decide
    rw [degreeCentrality, h1, h2]
    norm_num
  · have h1 : degree
        (subgraph (fromPandasEdgelist rowsC10)
          (minConnFilter (fromPandasEdgelist rowsC10) 2)) "B" = 2 := by decide
    have h2 : numNodes
        (subgraph (fromPandasEdgelist rowsC10)
          (minConnFilter (fromPandasEdgelist rowsC10) 2)) = 3 := by decide
    rw [degreeCentrality, h1, h2]
    norm_num

/-- Concrete instance of `nodeReport_spec` at the retained node `B` of
`rowsC10` with threshold 2. -/
theorem nodeReport_spec_wit :
    (nodeReport (fromPandasEdgelist rowsC10) 2 "B").1 =
      restrictedDegree (fromPandasEdgelist rowsC10)
        (minConnFilter (fromPandasEdgelist rowsC10) 2) "B" ∧
    (nodeReport (fromPandasEdgelist rowsC10) 2 "B").2 =
      degreeCentrality (fromPandasEdgelist rowsC10) "B" :=
  ⟨(nodeReport_spec rowsC10 2 "B" (by decide)).1,
   (nodeReport_spec rowsC10 2 "B" (by decide)).2.1⟩

/-- C5 counterexample: in `rowsTie` the users `u1` and `u2` tie on
degree, yet the table orders `u2` before `u1` although `u1 < u2` — the
tie is not broken by ascending node id (pandas reverses a stable
ascending pass, so ties come out in reversed insertion order). -/
theorem spreaderData_tie_order_cex :
    (spreaderData (fromPandasEdgelist rowsTie)).map (fun r => r.userId)
      = ["u9", "u2", "u1"] ∧
    degree (fromPandasEdgelist rowsTie) "u1" =
      degree (fromPandasEdgelist rowsTie) "u2" ∧
    idLt "u1" "u2" = true := by
  refine ⟨by decide, by decide, by decide⟩

/-- C5 (amended): the super-spreader table ranks the nodes of the full
graph by degree descending and keeps the first 10; every row carries
that node's degree, its degree centrality, and the risk label `High`
when the degree exceeds 3, `Medium` when it exceeds 1, else `Low`.
Ties are not ordered by ascending node id: they come out in the order
produced by pandas' descending sort (reversed stable ascending pass). -/
theorem spreaderData_spec (rows : List EdgeRow) :
    (spreaderData (fromPandasEdgelist rows)).Pairwise
      (fun a b => b.connections ≤ a.connections) ∧
    (spreaderData (fromPandasEdgelist rows)).length =
      min 10 (numNodes (fromPandasEdgelist rows)) ∧
    ∀ r ∈ spreaderData (fromPandasEdgelist rows),
      r.userId ∈ (fromPandasEdgelist rows).nodes ∧
      r.connections = degree (fromPandasEdgelist rows) r.userId ∧
      r.centrality = degreeCentrality (fromPandasEdgelist rows) r.userId ∧
      (3 < r.connections → r.risk = "High") ∧
      (1 < r.connections → r.connections ≤ 3 → r.risk = "Medium") ∧
      (r.connections ≤ 1 → r.risk = "Low") := by
  refine ⟨?_, ?_, ?_⟩
  · have hp := pairwise_pandasSortDesc
      (fun r : SpreaderRow => (r.connections : Int))
      ((fromPandasEdgelist rows).nodes.map (fun n =>
        ⟨n, degree (fromPandasEdgelist rows) n,
          degreeCentrality (fromPandasEdgelist rows) n,
          riskLabel (degree (fromPandasEdgelist rows) n)⟩))
    have hs := List.Pairwise.sublist (List.take_sublist 10 _) hp
    exact hs.imp (fun hab => by exact_mod_cast hab)
  · unfold spreaderData
    rw [List.length_take, length_pandasSortDesc, List.length_map]
    rfl
  · intro r hr
    unfold spreaderData at hr
    have hr2 := List.mem_of_mem_take hr
    rw [mem_pandasSortDesc] at hr2
    rcases List.mem_map.mp hr2 with ⟨n, hn, rfl⟩
    dsimp only
    refine ⟨hn, rfl, rfl, ?_, ?_, ?_⟩
    · intro h1
      unfold riskLabel
      rw [if_pos h1]
    · intro h1 h2
      unfold riskLabel
      rw [if_neg (by omega), if_pos h1]
    · intro h1
      unfold riskLabel
      rw [if_neg (by omega), if_neg (by omega)]

/-- Concrete instance of `spreaderData_spec` on `rowsStar`: the rows of
the star center `X` (degree 4), of `b` (degree 2) and of `d` (degree 1)
carry the labels High, Medium and Low. -/
theorem spreaderData_spec_wit :
    riskLabel (degree (fromPandasEdgelist rowsStar) "X") = "High" ∧
    riskLabel (degree (fromPandasEdgelist rowsStar) "b") = "Medium" ∧
    riskLabel (degree (fromPandasEdgelist rowsStar) "d") = "Low" ∧
    "X" ∈ (fromPandasEdgelist rowsStar).nodes := by
  have h := (spreaderData_spec rowsStar).2.2
  have hX := h ⟨"X", degree (fromPandasEdgelist rowsStar) "X",
      degreeCentrality (fromPandasEdgelist rowsStar) "X",
      riskLabel (degree (fromPandasEdgelist rowsStar) "X")⟩
    (List.mem_cons_self _ _)
  have hb := h ⟨"b", degree (fromPandasEdgelist rowsStar) "b",
      degreeCentrality (fromPandasEdgelist rowsStar) "b",
      riskLabel (degree (fromPandasEdgelist rowsStar) "b")⟩
    (List.mem_cons_of_mem _ (List.mem_cons_self _ _))
  have hd := h ⟨"d", degree (fromPandasEdgelist rowsStar) "d",
      degreeCentrality (fromPandasEdgelist rowsStar) "d",
      riskLabel (degree (fromPandasEdgelist rowsStar) "d")⟩
    (List.mem_cons_of_mem _ (List.mem_cons_of_mem _
      (List.mem_cons_of_mem _ (List.mem_cons_self _ _))))
  exact ⟨hX.2.2.2.1 (by decide), hb.2.2.2.2.1 (by decide) (by decide),
    hd.2.2.2.2.2 (by decide), hX.1⟩
